import Mathlib

/-
Verification of the lock-free Michael–Scott-style queue from `src/lib.rs`
(crate `lock-free-queue`).

The Rust code manipulates heap-allocated `Node` records through raw pointers
(`AtomicPtr`).  We embed it shallowly: memory is a function from addresses
(`Nat`, with `0` playing the role of the null pointer) to optional nodes,
allocation hands out consecutive fresh addresses starting from `1`, and the
two CAS loops are given an explicit fuel argument (the loop bodies are exact
translations of the source; `none` signals either fuel exhaustion, a failed
`assert!`, or a dereference of an invalid pointer, none of which occur in the
executions the theorems talk about).  `compare_and_swap` returns the previous
value, exactly as the Rust primitive does.

The enqueue loop additionally records the trace of its atomic actions
(`EnqEvent`), which is needed to settle the claim about the precise order of
the helping CAS, the re-read of `tail` and the link attempt.
-/

namespace LockFreeQueue

/-- Translation of `struct Node<T> { next: AtomicPtr<Node<T>>, value: Option<T> }`.
The `next` field holds an address; `0` is the null pointer. -/
structure Node (T : Type) where
  next : Nat
  value : Option T
deriving DecidableEq

/-- Translation of `Node::new`: a node holding `value` with a null `next`. -/
def Node.new (v : T) : Node T := { next := 0, value := some v }

/-- Translation of `Node::sentinel`: a node holding no value, null `next`. -/
def Node.sentinel (T : Type) : Node T := { next := 0, value := none }

/-- The queue together with the ambient heap.  `head` and `tail` are the two
`AtomicPtr` fields of the Rust `Queue`; `heap` models the process memory the
raw pointers point into, and `nextPtr` the allocator (fresh consecutive
addresses, all `≥ 1`). -/
structure Queue (T : Type) where
  heap : Nat → Option (Node T)
  nextPtr : Nat
  head : Nat
  tail : Nat

/-- Dereference an address: null (`0`) and unallocated addresses are invalid. -/
def getN (h : Nat → Option (Node T)) (p : Nat) : Option (Node T) :=
  if p = 0 then none else h p

/-- Overwrite the node stored at address `p`. -/
def setN (h : Nat → Option (Node T)) (p : Nat) (nd : Node T) :
    Nat → Option (Node T) :=
  fun q => if q = p then some nd else h q

/-- Translation of `Box::into_raw(Box::new(node))`: store `nd` at the next
fresh address and return that address. -/
def allocNode (s : Queue T) (nd : Node T) : Nat × Queue T :=
  (s.nextPtr,
   { s with heap := setN s.heap s.nextPtr nd, nextPtr := s.nextPtr + 1 })

/-- Translation of `Queue::new`: allocate one sentinel node and let both
`head` and `tail` reference it. -/
def Queue.new (T : Type) : Queue T :=
  let a := allocNode { heap := fun _ => none, nextPtr := 1, head := 0, tail := 0 }
    (Node.sentinel T)
  { a.2 with head := a.1, tail := a.1 }

/-- Translation of `self.tail.compare_and_swap(expected, new, SeqCst)`:
returns the updated state and the previous value of `tail` (the CAS succeeded
iff that previous value equals `expected`). -/
def Queue.casTail (s : Queue T) (expected new : Nat) : Queue T × Nat :=
  ((if s.tail = expected then { s with tail := new } else s), s.tail)

/-- Translation of `(*p).next.compare_and_swap(expected, new, SeqCst)`:
returns the updated state and the previous value of `(*p).next`; `none` if
`p` is not a valid pointer (which would be undefined behaviour in the
source). -/
def Queue.casNext (s : Queue T) (p expected new : Nat) :
    Option (Queue T × Nat) :=
  match getN s.heap p with
  | none => none
  | some n =>
    if n.next = expected then
      some ({ s with heap := setN s.heap p { next := new, value := n.value } }, n.next)
    else
      some (s, n.next)

/-- Atomic actions performed by the enqueue loop, in program order:
the load of `self.tail`, the load of the snapshot's `next` field, the helping
CAS on `self.tail`, and the CAS that tries to link the new node.  Each CAS
event records the previous value it observed. -/
inductive EnqEvent where
  | loadTail (p : Nat)
  | loadNext (p q : Nat)
  | helpCasTail (expected new prev : Nat)
  | linkCasNext (p expected new prev : Nat)
deriving DecidableEq

/-- Translation of the `loop { ... }` in `Queue::enqueue` (lines 44–62 of
`lib.rs`), with an explicit fuel bound on the number of iterations and an
accumulating trace of the atomic actions performed.  On exit it returns the
state, the `tail` snapshot of the final (successful) iteration — the Rust
`tail` local that survives the loop — and the trace. -/
def Queue.enqueueLoop (newPtr : Nat) :
    Nat → Queue T → List EnqEvent → Option (Queue T × Nat × List EnqEvent)
  | 0, _, _ => none
  | fuel + 1, s, evs =>
    let tl := s.tail
    let evs1 := evs ++ [EnqEvent.loadTail tl]
    match getN s.heap tl with
    | none => none
    | some tn =>
      let trueTail := tn.next
      let evs2 := evs1 ++ [EnqEvent.loadNext tl trueTail]
      let sh := if trueTail ≠ 0 then Queue.casTail s tl trueTail else (s, s.tail)
      let evs3 :=
        if trueTail ≠ 0 then evs2 ++ [EnqEvent.helpCasTail tl trueTail sh.2]
        else evs2
      match Queue.casNext sh.1 tl 0 newPtr with
      | none => none
      | some (s2, prev) =>
        let evs4 := evs3 ++ [EnqEvent.linkCasNext tl 0 newPtr prev]
        if prev ≠ 0 then Queue.enqueueLoop newPtr fuel s2 evs4
        else some (s2, tl, evs4)

/-- Translation of `Queue::enqueue` (lines 41–66 of `lib.rs`): allocate the
new node, run the CAS loop, then do the single best-effort CAS advancing
`tail` to the new node.  Returns the final state and the loop's event trace;
`none` only on fuel exhaustion or invalid dereference. -/
def Queue.enqueue (fuel : Nat) (s : Queue T) (v : T) :
    Option (Queue T × List EnqEvent) :=
  let a := allocNode s (Node.new v)
  match Queue.enqueueLoop a.1 fuel a.2 [] with
  | none => none
  | some (s2, tlSnap, evs) => some ((Queue.casTail s2 tlSnap a.1).1, evs)

/-- Translation of `Queue::dequeue` (lines 68–98 of `lib.rs`), with fuel for
the retry loop.  Returns `some (state, some v)` on a successful removal,
`some (state, none)` when the queue is observed empty (the `break` followed
by the final `None`), and `none` on fuel exhaustion, a failed
`assert!(!first_node.is_null())`, or an invalid dereference. -/
def Queue.dequeue : Nat → Queue T → Option (Queue T × Option T)
  | 0, _ => none
  | fuel + 1, s =>
    let hd := s.head
    let tl := s.tail
    match getN s.heap hd with
    | none => none
    | some hn =>
      let firstNode := hn.next
      if hd = tl then
        if firstNode = 0 then some (s, none)
        else Queue.dequeue fuel (Queue.casTail s tl firstNode).1
      else
        if firstNode = 0 then none
        else
          match getN s.heap firstNode with
          | none => none
          | some fn =>
            let newFirstNode := fn.next
            match Queue.casNext s hd firstNode newFirstNode with
            | none => none
            | some (s2, prev) =>
              if prev = firstNode then
                let s3 := if newFirstNode = 0 then (Queue.casTail s2 tl hd).1 else s2
                match getN s3.heap firstNode with
                | none => none
                | some fn2 =>
                  some ({ s3 with heap := setN s3.heap firstNode { next := fn2.next, value := none } },
                        fn2.value)
              else Queue.dequeue fuel s2

/-- Operations of the public API, used to describe complete executions. -/
inductive Op (T : Type) where
  | enq (v : T)
  | deq
deriving DecidableEq

/-- Run a sequence of API calls, each with the given fuel, collecting every
dequeue's result in order. -/
def runOps (fuel : Nat) : List (Op T) → Queue T → Option (Queue T × List (Option T))
  | [], s => some (s, [])
  | Op.enq v :: ops, s =>
    match Queue.enqueue fuel s v with
    | none => none
    | some (s1, _) => runOps fuel ops s1
  | Op.deq :: ops, s =>
    match Queue.dequeue fuel s with
    | none => none
    | some (s1, r) =>
      match runOps fuel ops s1 with
      | none => none
      | some (s2, outs) => some (s2, r :: outs)

/-- States reachable from a fresh queue through `new`/`enqueue`/`dequeue`. -/
def Reachable (s : Queue T) : Prop :=
  ∃ fuel ops outs, runOps fuel ops (Queue.new T) = some (s, outs)

/-- Modelled from the spec: the abstract FIFO queue (a plain list) that the
implementation is proved to refine.  Running the same operation sequence on
it yields the final contents and the results of all the dequeues. -/
def specFifoRun : List (Op T) → List T → List T × List (Option T)
  | [], vs => (vs, [])
  | Op.enq v :: ops, vs => specFifoRun ops (vs ++ [v])
  | Op.deq :: ops, [] =>
    let r := specFifoRun ops []
    (r.1, none :: r.2)
  | Op.deq :: ops, v :: rest =>
    let r := specFifoRun ops rest
    (r.1, some v :: r.2)

/-- The values passed to the enqueue calls of an operation sequence, in
order. -/
def enqueuedVals : List (Op T) → List T
  | [] => []
  | Op.enq v :: ops => v :: enqueuedVals ops
  | Op.deq :: ops => enqueuedVals ops

/-- Heap segment predicate: starting from the node at address `p`, following
`next` pointers visits the addresses `ps` (excluding `p` itself), every
visited node after `p` holds a present value (`vs` lists those values in
order), the last visited address is `t`, and the node at `t` has a null
`next`.  Addresses strictly increase along the chain, which is how the
allocator lays the list out. -/
inductive Seg (h : Nat → Option (Node T)) : Nat → List Nat → List T → Nat → Prop where
  | nil : ∀ p n, getN h p = some n → n.next = 0 → Seg h p [] [] p
  | cons : ∀ p n ps vs v m t, getN h p = some n → p < n.next →
      getN h n.next = some m → m.value = some v →
      Seg h n.next ps vs t → Seg h p (n.next :: ps) (v :: vs) t

/-- The sequential state invariant: the allocator counter is positive and
bounds the allocated part of the heap, the head node holds no value (it is
the sentinel), and the heap contains a chain from `head` to `tail` holding
exactly the queued values `vs`. -/
def Inv (s : Queue T) (vs : List T) : Prop :=
  0 < s.nextPtr ∧
  (∀ q, s.nextPtr ≤ q → s.heap q = none) ∧
  (∃ hn, getN s.heap s.head = some hn ∧ hn.value = none) ∧
  (∃ ps, Seg s.heap s.head ps vs s.tail)

/-- Scanning helper for enqueue traces: after a helping CAS, is the next
relevant action a re-read of `tail` (true) or a link attempt (false)?  Skips
events that are neither. -/
def noLinkBeforeLoad : List EnqEvent → Bool
  | [] => true
  | EnqEvent.linkCasNext _ _ _ _ :: _ => false
  | EnqEvent.loadTail _ :: _ => true
  | _ :: rest => noLinkBeforeLoad rest

/-- Property of an enqueue trace: every helping CAS is followed by a re-read
of `tail` before any further attempt to link the new node.  This is exactly
what the specification asserts about the enqueue loop's step (c). -/
def helpReloads : List EnqEvent → Bool
  | [] => true
  | EnqEvent.helpCasTail _ _ _ :: rest => noLinkBeforeLoad rest && helpReloads rest
  | _ :: rest => helpReloads rest

/-- A concrete state in which `tail` lags behind an already-linked node:
node `1` (the sentinel, referenced by both `head` and `tail`) already has
node `2` linked after it, but `tail` still references node `1`.  This is
precisely the situation the helping branch of the enqueue loop handles; it
arises when an enqueue is interrupted between its link CAS and its tail
swing. -/
def lagState : Queue Nat :=
  { heap := setN (setN (fun _ => none) 1 { next := 2, value := none })
      2 { next := 0, value := some 5 },
    nextPtr := 3, head := 1, tail := 1 }

/-- The state produced by `enqueue 10` on a fresh queue: sentinel node `1`
linked to value node `2`, `head` at the sentinel, `tail` at the value node. -/
def exOne : Queue Nat :=
  { heap := setN (setN (setN (fun _ => none) 1 (Node.sentinel Nat)) 2 (Node.new 10))
      1 { next := 2, value := none },
    nextPtr := 3, head := 1, tail := 2 }

end LockFreeQueue

namespace LockFreeQueue

-- Sanity checks of the embedding on the concrete scenarios of the spec.

example :
    (runOps 1 [Op.enq 10, Op.deq, Op.deq] (Queue.new Nat)).map Prod.snd
      = some [some 10, none] := by decide

example :
    (runOps 1 [Op.enq 11, Op.enq 12, Op.enq 13, Op.deq, Op.deq, Op.deq, Op.deq]
        (Queue.new Nat)).map Prod.snd
      = some [some 11, some 12, some 13, none] := by decide

example :
    (runOps 1 [Op.enq 14, Op.enq 15, Op.deq, Op.enq 16, Op.deq, Op.deq, Op.deq]
        (Queue.new Nat)).map Prod.snd
      = some [some 14, some 15, some 16, none] := by decide

-- Basic facts about the heap primitives.

theorem getN_ne_zero {h : Nat → Option (Node T)} {p : Nat} {n : Node T}
    (hg : getN h p = some n) : p ≠ 0 := by
  intro hp
  rw [hp] at hg
  simp [getN] at hg

theorem getN_raw {h : Nat → Option (Node T)} {p : Nat} {n : Node T}
    (hg : getN h p = some n) : h p = some n := by
  have hp : p ≠ 0 := getN_ne_zero hg
  rwa [getN, if_neg hp] at hg

theorem getN_setN_self {h : Nat → Option (Node T)} {p : Nat} (nd : Node T)
    (hp : p ≠ 0) : getN (setN h p nd) p = some nd := by
  simp [getN, setN, hp]

theorem getN_setN_ne {h : Nat → Option (Node T)} {p q : Nat} (nd : Node T)
    (hq : q ≠ p) : getN (setN h p nd) q = getN h q := by
  simp [getN, setN, hq]

theorem getN_congr {h h2 : Nat → Option (Node T)} {q : Nat}
    (he : h2 q = h q) : getN h2 q = getN h q := by
  by_cases hq : q = 0 <;> simp [getN, hq, he]

theorem lt_nextPtr_of_getN {s : Queue T} {p : Nat} {n : Node T}
    (hb : ∀ q, s.nextPtr ≤ q → s.heap q = none)
    (hg : getN s.heap p = some n) : p < s.nextPtr := by
  by_contra hle
  have := hb p (Nat.le_of_not_lt hle)
  rw [getN_raw hg] at this
  exact Option.noConfusion this

-- Structural facts about heap segments.

theorem Seg.gt_mem {h : Nat → Option (Node T)} {p : Nat} {ps : List Nat}
    {vs : List T} {t : Nat} (hs : Seg h p ps vs t) :
    ∀ x ∈ ps, p < x := by
  induction hs with
  | nil p n h1 h2 => intro x hx; cases hx
  | cons p n ps vs v m t h1 hlt h3 h4 h5 ih =>
    intro x hx
    rcases List.mem_cons.mp hx with hx | hx
    · exact hx ▸ hlt
    · exact lt_trans hlt (ih x hx)

theorem Seg.t_mem {h : Nat → Option (Node T)} {p : Nat} {ps : List Nat}
    {vs : List T} {t : Nat} (hs : Seg h p ps vs t) : t ∈ p :: ps := by
  induction hs with
  | nil p n h1 h2 => exact List.mem_cons_self _ _
  | cons p n ps vs v m t h1 hlt h3 h4 h5 ih => exact List.mem_cons_of_mem _ ih

theorem Seg.le_t {h : Nat → Option (Node T)} {p : Nat} {ps : List Nat}
    {vs : List T} {t : Nat} (hs : Seg h p ps vs t) : p ≤ t := by
  rcases List.mem_cons.mp hs.t_mem with ht | ht
  · exact ht ▸ le_refl p
  · exact le_of_lt (hs.gt_mem t ht)

theorem Seg.terminal {h : Nat → Option (Node T)} {p : Nat} {ps : List Nat}
    {vs : List T} {t : Nat} (hs : Seg h p ps vs t) :
    ∃ tn, getN h t = some tn ∧ tn.next = 0 := by
  induction hs with
  | nil p n h1 h2 => exact ⟨n, h1, h2⟩
  | cons p n ps vs v m t h1 hlt h3 h4 h5 ih => exact ih

theorem Seg.start {h : Nat → Option (Node T)} {p : Nat} {ps : List Nat}
    {vs : List T} {t : Nat} (hs : Seg h p ps vs t) :
    ∃ n, getN h p = some n := by
  cases hs with
  | nil p n h1 h2 => exact ⟨n, h1⟩
  | cons p n ps vs v m t h1 hlt h3 h4 h5 => exact ⟨n, h1⟩

/-- A segment only looks at the heap entries of its member addresses, so it
transfers to any heap agreeing there. -/
theorem Seg.congr {h h2 : Nat → Option (Node T)} {p : Nat} {ps : List Nat}
    {vs : List T} {t : Nat} (hs : Seg h p ps vs t)
    (he : ∀ q, q ∈ p :: ps → h2 q = h q) : Seg h2 p ps vs t := by
  induction hs with
  | nil p n h1 hn0 =>
    exact Seg.nil p n (by rw [getN_congr (he p (List.mem_cons_self _ _))]; exact h1) hn0
  | cons p n ps vs v m t h1 hlt h3 h4 h5 ih =>
    refine Seg.cons p n ps vs v m t ?_ hlt ?_ h4 ?_
    · rw [getN_congr (he p (List.mem_cons_self _ _))]; exact h1
    · rw [getN_congr (he n.next (List.mem_cons_of_mem _ (List.mem_cons_self _ _)))]
      exact h3
    · exact ih fun q hq => he q (List.mem_cons_of_mem _ hq)

/-- Extending a segment at its terminal node: if the terminal's `next` is
redirected to a freshly allocated value node, the segment grows by that
node. -/
theorem Seg.snoc {h h2 : Nat → Option (Node T)} {p : Nat} {ps : List Nat}
    {vs : List T} {t newPtr : Nat} {v : T} {tn : Node T}
    (hs : Seg h p ps vs t)
    (hfr : ∀ q, q ∈ p :: ps → q ≠ t → h2 q = h q)
    (htn : getN h t = some tn)
    (h2t : getN h2 t = some { next := newPtr, value := tn.value })
    (hnew : getN h2 newPtr = some { next := 0, value := some v })
    (hlt : ∀ q, q ∈ p :: ps → q < newPtr) :
    Seg h2 p (ps ++ [newPtr]) (vs ++ [v]) newPtr := by
  induction hs with
  | nil p n h1 hn0 =>
    have htp : tn = n := by
      rw [h1] at htn; exact (Option.some_inj.mp htn).symm
    refine Seg.cons p { next := newPtr, value := tn.value } [] [] v
      { next := 0, value := some v } newPtr h2t ?_ hnew rfl ?_
    · exact hlt p (List.mem_cons_self _ _)
    · exact Seg.nil newPtr { next := 0, value := some v } hnew rfl
  | cons p n ps vs v' m t h1 hplt h3 h4 h5 ih =>
    have hptlt : p < t := by
      rcases List.mem_cons.mp h5.t_mem with ht | ht
      · rw [ht]; exact hplt
      · exact lt_trans hplt (h5.gt_mem t ht)
    have hpt : p ≠ t := Nat.ne_of_lt hptlt
    have hp2 : getN h2 p = some n := by
      rw [getN_congr (hfr p (List.mem_cons_self _ _) hpt)]; exact h1
    by_cases hnt : n.next = t
    · -- the terminal is the very next node: its `next` now points at `newPtr`
      have htm : tn = m := by
        rw [hnt] at h3; rw [h3] at htn; exact (Option.some_inj.mp htn).symm
      refine Seg.cons p n (ps ++ [newPtr]) (vs ++ [v]) v'
        { next := newPtr, value := tn.value } newPtr hp2 hplt (hnt ▸ h2t) ?_ ?_
      · rw [htm]; exact h4
      · exact ih (fun q hq hqt => hfr q (List.mem_cons_of_mem _ hq) hqt) htn h2t
          (fun q hq => hlt q (List.mem_cons_of_mem _ hq))
    · have hm2 : getN h2 n.next = some m := by
        rw [getN_congr (hfr n.next (List.mem_cons_of_mem _ (List.mem_cons_self _ _)) hnt)]
        exact h3
      refine Seg.cons p n (ps ++ [newPtr]) (vs ++ [v]) v' m newPtr hp2 hplt hm2 h4 ?_
      exact ih (fun q hq hqt => hfr q (List.mem_cons_of_mem _ hq) hqt) htn h2t
        (fun q hq => hlt q (List.mem_cons_of_mem _ hq))

theorem Seg.valid_mem {h : Nat → Option (Node T)} {p : Nat} {ps : List Nat}
    {vs : List T} {t : Nat} (hs : Seg h p ps vs t) :
    ∀ q ∈ p :: ps, ∃ nq, getN h q = some nq := by
  induction hs with
  | nil p n h1 hn0 =>
    intro q hq
    rcases List.mem_cons.mp hq with hq | hq
    · exact ⟨n, hq ▸ h1⟩
    · cases hq
  | cons p n ps vs v m t h1 hlt h3 h4 h5 ih =>
    intro q hq
    rcases List.mem_cons.mp hq with hq | hq
    · exact ⟨n, hq ▸ h1⟩
    · exact ih q hq

/-- Every non-head node of a segment holds a present value. -/
theorem Seg.value_mem {h : Nat → Option (Node T)} {p : Nat} {ps : List Nat}
    {vs : List T} {t : Nat} (hs : Seg h p ps vs t) :
    ∀ q ∈ ps, ∃ nq, getN h q = some nq ∧ nq.value ≠ none := by
  induction hs with
  | nil p n h1 hn0 => intro q hq; cases hq
  | cons p n ps vs v m t h1 hlt h3 h4 h5 ih =>
    intro q hq
    rcases List.mem_cons.mp hq with hq | hq
    · exact ⟨m, hq ▸ h3, by rw [h4]; exact fun hc => Option.noConfusion hc⟩
    · exact ih q hq

/-- The invariant holds for a freshly constructed queue, with no values. -/
theorem inv_new (T : Type) : Inv (Queue.new T) [] := by
  refine ⟨Nat.zero_lt_succ _, ?_, ?_, ?_⟩
  · intro q hqe
    have h2q : 2 ≤ q := hqe
    have hq1 : q ≠ 1 := by omega
    show setN (fun _ => none) 1 (Node.sentinel T) q = none
    simp [setN, hq1]
  · refine ⟨Node.sentinel T, ?_, rfl⟩
    show getN (setN (fun _ => none) 1 (Node.sentinel T)) 1 = some (Node.sentinel T)
    simp [getN, setN]
  · refine ⟨[], Seg.nil 1 (Node.sentinel T) ?_ rfl⟩
    show getN (setN (fun _ => none) 1 (Node.sentinel T)) 1 = some (Node.sentinel T)
    simp [getN, setN]

/-- Sequential behaviour of `Queue::enqueue` from any state satisfying the
invariant: the CAS loop succeeds on its very first iteration (so fuel `1`
suffices), no helping CAS happens, the trace is load-load-link, the new node
is linked after the old tail and `tail` is advanced to it, and the invariant
holds again with the value appended. -/
theorem enqueue_spec {T : Type} {s : Queue T} {vs : List T} (f : Nat) (v : T)
    (h : Inv s vs) :
    ∃ tn : Node T, getN s.heap s.tail = some tn ∧ tn.next = 0 ∧
      Queue.enqueue (f + 1) s v = some
        ({ heap := setN (setN s.heap s.nextPtr (Node.new v)) s.tail
             { next := s.nextPtr, value := tn.value },
           nextPtr := s.nextPtr + 1, head := s.head, tail := s.nextPtr },
         [EnqEvent.loadTail s.tail, EnqEvent.loadNext s.tail 0,
          EnqEvent.linkCasNext s.tail 0 s.nextPtr 0]) ∧
      Inv { heap := setN (setN s.heap s.nextPtr (Node.new v)) s.tail
              { next := s.nextPtr, value := tn.value },
            nextPtr := s.nextPtr + 1, head := s.head, tail := s.nextPtr }
        (vs ++ [v]) := by
  obtain ⟨hpos, hb, ⟨hn, hhd, hhdval⟩, ps, hseg⟩ := h
  obtain ⟨tn, htn, htn0⟩ := hseg.terminal
  have ht0 : s.tail ≠ 0 := getN_ne_zero htn
  have htlt : s.tail < s.nextPtr := lt_nextPtr_of_getN hb htn
  have htp : s.tail ≠ s.nextPtr := Nat.ne_of_lt htlt
  have hnp0 : s.nextPtr ≠ 0 := by omega
  have hget1 : getN (setN s.heap s.nextPtr (Node.new v)) s.tail = some tn :=
    (getN_setN_ne _ htp).trans htn
  refine ⟨tn, htn, htn0, ?_, ?_⟩
  · -- symbolic execution of the call
    simp only [Queue.enqueue, allocNode, Queue.enqueueLoop, hget1, htn0,
      Queue.casNext, Queue.casTail]
    simp [hget1, htn0]
  · -- the invariant is preserved
    refine ⟨Nat.succ_pos _, ?_, ?_, ?_⟩
    · intro q hq
      have hq0 : s.nextPtr + 1 ≤ q := hq
      have hq1 : q ≠ s.tail := by omega
      have hq2 : q ≠ s.nextPtr := by omega
      show setN (setN s.heap s.nextPtr (Node.new v)) s.tail
        { next := s.nextPtr, value := tn.value } q = none
      simp only [setN, if_neg hq1, if_neg hq2]
      exact hb q (by omega)
    · -- the head node still holds no value
      by_cases hht : s.head = s.tail
      · refine ⟨{ next := s.nextPtr, value := tn.value }, ?_, ?_⟩
        · show getN (setN (setN s.heap s.nextPtr (Node.new v)) s.tail
            { next := s.nextPtr, value := tn.value }) s.head = _
          rw [hht, getN_setN_self _ ht0]
        · show tn.value = none
          rw [hht] at hhd
          rw [htn] at hhd
          rw [Option.some_inj.mp hhd]
          exact hhdval
      · have hh0 : s.head ≠ 0 := getN_ne_zero hhd
        have hhlt : s.head < s.nextPtr := lt_nextPtr_of_getN hb hhd
        refine ⟨hn, ?_, hhdval⟩
        show getN (setN (setN s.heap s.nextPtr (Node.new v)) s.tail
          { next := s.nextPtr, value := tn.value }) s.head = _
        rw [getN_setN_ne _ hht, getN_setN_ne _ (Nat.ne_of_lt hhlt)]
        exact hhd
    · -- the chain grows by the new node at the end
      refine ⟨ps ++ [s.nextPtr], ?_⟩
      have hlt : ∀ q ∈ s.head :: ps, q < s.nextPtr := by
        intro q hq
        obtain ⟨nq, hnq⟩ := hseg.valid_mem q hq
        exact lt_nextPtr_of_getN hb hnq
      refine hseg.snoc ?_ htn ?_ ?_ hlt
      · intro q hq hqt
        show setN (setN s.heap s.nextPtr (Node.new v)) s.tail
          { next := s.nextPtr, value := tn.value } q = s.heap q
        have hqp : q ≠ s.nextPtr := Nat.ne_of_lt (hlt q hq)
        simp only [setN, if_neg hqt, if_neg hqp]
      · show getN (setN (setN s.heap s.nextPtr (Node.new v)) s.tail
          { next := s.nextPtr, value := tn.value }) s.tail = _
        rw [getN_setN_self _ ht0]
      · show getN (setN (setN s.heap s.nextPtr (Node.new v)) s.tail
          { next := s.nextPtr, value := tn.value }) s.nextPtr = _
        rw [getN_setN_ne _ (Ne.symm htp), getN_setN_self _ hnp0]
        rfl

theorem Seg.nil_inv {h : Nat → Option (Node T)} {p : Nat} {ps : List Nat}
    {t : Nat} (hs : Seg h p ps [] t) :
    ps = [] ∧ t = p ∧ ∃ n, getN h p = some n ∧ n.next = 0 := by
  cases hs with
  | nil p n h1 h2 => exact ⟨rfl, rfl, n, h1, h2⟩

theorem Seg.terminal_inv {h : Nat → Option (Node T)} {p : Nat} {ps : List Nat}
    {vs : List T} {t : Nat} {n : Node T} (hs : Seg h p ps vs t)
    (hn : getN h p = some n) (h0 : n.next = 0) :
    ps = [] ∧ vs = [] ∧ t = p := by
  cases hs with
  | nil p n' h1 h2 => exact ⟨rfl, rfl, rfl⟩
  | cons p n' ps vs v m t h1 hlt h3 h4 h5 =>
    rw [hn] at h1
    cases Option.some_inj.mp h1
    rw [h0] at hlt
    exact absurd hlt (Nat.not_lt_zero p)

theorem Seg.step_inv {h : Nat → Option (Node T)} {p : Nat} {ps : List Nat}
    {vs : List T} {t : Nat} {n : Node T} (hs : Seg h p ps vs t)
    (hn : getN h p = some n) (hnz : n.next ≠ 0) :
    ∃ m ps' v vs', ps = n.next :: ps' ∧ vs = v :: vs' ∧ p < n.next ∧
      getN h n.next = some m ∧ m.value = some v ∧ Seg h n.next ps' vs' t := by
  cases hs with
  | nil p n' h1 h2 =>
    rw [hn] at h1
    cases Option.some_inj.mp h1
    exact absurd h2 hnz
  | cons p n' ps vs v m t h1 hlt h3 h4 h5 =>
    rw [hn] at h1
    cases Option.some_inj.mp h1
    exact ⟨m, ps, v, vs, rfl, rfl, hlt, h3, h4, h5⟩

/-- Sequential behaviour of `Queue::dequeue` on a drained queue: the queue is
observed empty on the first iteration, the state is returned completely
unchanged and the result is `none`. -/
theorem dequeue_spec_nil {T : Type} {s : Queue T} (f : Nat) (h : Inv s []) :
    Queue.dequeue (f + 1) s = some (s, none) := by
  obtain ⟨hpos, hb, hhead, ps, hseg⟩ := h
  obtain ⟨hps, hts, n, hn, hn0⟩ := hseg.nil_inv
  simp only [Queue.dequeue, hn, hn0, hts]
  simp

/-- Sequential behaviour of `Queue::dequeue` on a queue holding `v :: vs`:
the first real node (the head node's successor) is unlinked by the CAS on the
head node's `next` field, its value — present — is taken, `head` itself is
left untouched, and the invariant holds again with `vs`. -/
theorem dequeue_spec_cons {T : Type} {s : Queue T} {v : T} {vs : List T}
    (f : Nat) (h : Inv s (v :: vs)) :
    ∃ hn fn : Node T, ∃ s2 : Queue T,
      getN s.heap s.head = some hn ∧ hn.value = none ∧ hn.next ≠ 0 ∧
      getN s.heap hn.next = some fn ∧ fn.value = some v ∧
      Queue.dequeue (f + 1) s = some (s2, some v) ∧
      s2.head = s.head ∧ s2.nextPtr = s.nextPtr ∧
      s2.heap = setN (setN s.heap s.head { next := fn.next, value := hn.value })
        hn.next { next := fn.next, value := none } ∧
      getN s2.heap s.head = some { next := fn.next, value := hn.value } ∧
      getN s2.heap hn.next = some { next := fn.next, value := none } ∧
      s2.tail = (if fn.next = 0 then s.head else s.tail) ∧
      Inv s2 vs := by
  obtain ⟨hpos, hb, ⟨hn0, hhd, hhdval⟩, ps, hseg⟩ := h
  obtain ⟨m, ps', v', vs', hpseq, hvseq, hlt, h3, h4, h5⟩ :=
    hseg.step_inv hhd (by intro hz; obtain ⟨a, b, c⟩ := hseg.terminal_inv hhd hz; cases b)
  cases hvseq
  have hh0 : s.head ≠ 0 := getN_ne_zero hhd
  have hF0 : hn0.next ≠ 0 := Nat.not_eq_zero_of_lt hlt
  have hFh : hn0.next ≠ s.head := Ne.symm (Nat.ne_of_lt hlt)
  have hts_gt : s.head < s.tail := by
    rcases List.mem_cons.mp h5.t_mem with ht | ht
    · rw [ht]; exact hlt
    · exact lt_trans hlt (h5.gt_mem _ ht)
  have hht : s.head ≠ s.tail := Nat.ne_of_lt hts_gt
  have hhlt : s.head < s.nextPtr := lt_nextPtr_of_getN hb hhd
  have hFlt : hn0.next < s.nextPtr := lt_nextPtr_of_getN hb h3
  by_cases hmn : m.next = 0
  · -- removing the last element: tail is reset to head
    obtain ⟨hps', hvs', hts⟩ := h5.terminal_inv h3 hmn
    cases hps'
    cases hvs'
    have hcas0 : Queue.casNext s s.head hn0.next 0
        = some ({ s with heap := setN s.heap s.head { next := 0, value := hn0.value } },
                hn0.next) := by
      simp [Queue.casNext, hhd]
    have hgf0 : getN (setN s.heap s.head { next := 0, value := hn0.value }) hn0.next
        = some m := (getN_setN_ne _ hFh).trans h3
    refine ⟨hn0, m,
      { heap := setN (setN s.heap s.head { next := m.next, value := hn0.value })
          hn0.next { next := m.next, value := none },
        nextPtr := s.nextPtr, head := s.head, tail := s.head },
      hhd, hhdval, hF0, h3, h4, ?_, rfl, rfl, rfl, ?_, ?_, ?_, ?_⟩
    · -- symbolic execution
      simp only [Queue.dequeue, hhd, if_neg hht, if_neg hF0, h3, hmn, hcas0,
        Queue.casTail, hgf0, h4, hts]
      simp [hgf0, h4, hmn, Ne.symm hFh]
    · rw [getN_setN_ne _ (Ne.symm hFh), getN_setN_self _ hh0]
    · rw [getN_setN_self _ hF0]
    · simp [hmn]
    · -- the invariant for the now-empty queue
      refine ⟨hpos, ?_, ?_, ?_⟩
      · intro q hq
        have hq0 : s.nextPtr ≤ q := hq
        have hq1 : q ≠ hn0.next := by omega
        have hq2 : q ≠ s.head := by omega
        show setN (setN s.heap s.head { next := m.next, value := hn0.value })
          hn0.next { next := m.next, value := none } q = none
        simp only [setN, if_neg hq1, if_neg hq2]
        exact hb q hq
      · refine ⟨{ next := m.next, value := hn0.value }, ?_, hhdval⟩
        show getN (setN (setN s.heap s.head { next := m.next, value := hn0.value })
          hn0.next { next := m.next, value := none }) s.head = _
        rw [getN_setN_ne _ (Ne.symm hFh), getN_setN_self _ hh0]
      · refine ⟨[], ?_⟩
        show Seg _ s.head [] [] s.head
        refine Seg.nil s.head { next := m.next, value := hn0.value } ?_ hmn
        show getN (setN (setN s.heap s.head { next := m.next, value := hn0.value })
          hn0.next { next := m.next, value := none }) s.head = _
        rw [getN_setN_ne _ (Ne.symm hFh), getN_setN_self _ hh0]
  · -- more elements remain: tail is untouched
    obtain ⟨m2, ps'', v2, vs'', hpseq2, hvseq2, hlt2, h32, h42, h52⟩ :=
      h5.step_inv h3 hmn
    cases hvseq2
    have hcas : Queue.casNext s s.head hn0.next m.next
        = some ({ s with heap := setN s.heap s.head { next := m.next, value := hn0.value } },
                hn0.next) := by
      simp [Queue.casNext, hhd]
    have hgf : getN (setN s.heap s.head { next := m.next, value := hn0.value }) hn0.next
        = some m := (getN_setN_ne _ hFh).trans h3
    refine ⟨hn0, m,
      { heap := setN (setN s.heap s.head { next := m.next, value := hn0.value })
          hn0.next { next := m.next, value := none },
        nextPtr := s.nextPtr, head := s.head, tail := s.tail },
      hhd, hhdval, hF0, h3, h4, ?_, rfl, rfl, rfl, ?_, ?_, ?_, ?_⟩
    · simp only [Queue.dequeue, hhd, if_neg hht, if_neg hF0, h3, hcas,
        if_neg hmn, hgf, h4]
      simp [h4]
    · rw [getN_setN_ne _ (Ne.symm hFh), getN_setN_self _ hh0]
    · rw [getN_setN_self _ hF0]
    · simp [hmn]
    · -- the invariant with the remaining values
      refine ⟨hpos, ?_, ?_, ?_⟩
      · intro q hq
        have hq0 : s.nextPtr ≤ q := hq
        have hq1 : q ≠ hn0.next := by omega
        have hq2 : q ≠ s.head := by omega
        show setN (setN s.heap s.head { next := m.next, value := hn0.value })
          hn0.next { next := m.next, value := none } q = none
        simp only [setN, if_neg hq1, if_neg hq2]
        exact hb q hq
      · refine ⟨{ next := m.next, value := hn0.value }, ?_, hhdval⟩
        show getN (setN (setN s.heap s.head { next := m.next, value := hn0.value })
          hn0.next { next := m.next, value := none }) s.head = _
        rw [getN_setN_ne _ (Ne.symm hFh), getN_setN_self _ hh0]
      · refine ⟨m.next :: ps'', ?_⟩
        rw [hpseq2] at h5
        have hframe : ∀ q, q ∈ m.next :: ps'' →
            setN (setN s.heap s.head { next := m.next, value := hn0.value })
              hn0.next { next := m.next, value := none } q = s.heap q := by
          intro q hq
          have hqF : hn0.next < q := by
            rcases List.mem_cons.mp hq with hq | hq
            · rw [hq]; exact hlt2
            · exact lt_trans hlt2 (h52.gt_mem _ hq)
          have hq1 : q ≠ hn0.next := Ne.symm (Nat.ne_of_lt hqF)
          have hq2 : q ≠ s.head := Ne.symm (Nat.ne_of_lt (lt_trans hlt hqF))
          simp only [setN, if_neg hq1, if_neg hq2]
        refine Seg.cons s.head { next := m.next, value := hn0.value }
          ps'' vs'' v2 m2 s.tail ?_ ?_ ?_ h42 ?_
        · show getN (setN (setN s.heap s.head { next := m.next, value := hn0.value })
            hn0.next { next := m.next, value := none }) s.head = _
          rw [getN_setN_ne _ (Ne.symm hFh), getN_setN_self _ hh0]
        · show s.head < m.next
          exact lt_trans hlt hlt2
        · show getN _ m.next = some m2
          rw [getN_congr (hframe m.next (List.mem_cons_self _ _))]
          exact h32
        · exact h52.congr fun q hq => hframe q hq

/-- Refinement: running any sequence of API calls on a state satisfying the
invariant succeeds (with any positive per-call fuel), produces exactly the
dequeue results predicted by the abstract FIFO model, and re-establishes the
invariant with the model's final contents. -/
theorem runOps_model {T : Type} (f : Nat) :
    ∀ (ops : List (Op T)) (s : Queue T) (vs : List T), Inv s vs →
      ∃ s2, runOps (f + 1) ops s = some (s2, (specFifoRun ops vs).2) ∧
        Inv s2 (specFifoRun ops vs).1 := by
  intro ops
  induction ops with
  | nil => intro s vs h; exact ⟨s, rfl, h⟩
  | cons op ops ih =>
    intro s vs h
    cases op with
    | enq v =>
      obtain ⟨tn, htn, htn0, heq, hinv⟩ := enqueue_spec f v h
      obtain ⟨s2, hrun, hinv2⟩ := ih _ _ hinv
      exact ⟨s2, by simp only [runOps, heq, hrun, specFifoRun],
        by simpa only [specFifoRun] using hinv2⟩
    | deq =>
      cases vs with
      | nil =>
        have heq := dequeue_spec_nil f h
        obtain ⟨s2, hrun, hinv2⟩ := ih s [] h
        exact ⟨s2, by simp only [runOps, heq, hrun, specFifoRun],
          by simpa only [specFifoRun] using hinv2⟩
      | cons v vs' =>
        obtain ⟨hn, fn, sA, _, _, _, _, _, heq, _, _, _, _, _, _, hinv⟩ :=
          dequeue_spec_cons f h
        obtain ⟨s2, hrun, hinv2⟩ := ih sA vs' hinv
        exact ⟨s2, by simp only [runOps, heq, hrun, specFifoRun],
          by simpa only [specFifoRun] using hinv2⟩

/-- Every reachable state satisfies the invariant for some list of queued
values. -/
theorem reach_inv {T : Type} {s : Queue T} (h : Reachable s) :
    ∃ vs, Inv s vs := by
  obtain ⟨fuel, ops, outs, hrun⟩ := h
  cases fuel with
  | zero =>
    cases ops with
    | nil =>
      have hs : Queue.new T = s := congrArg Prod.fst (Option.some_inj.mp hrun)
      exact ⟨[], hs ▸ inv_new T⟩
    | cons op ops =>
      cases op with
      | enq v => simp [runOps, Queue.enqueue, Queue.enqueueLoop, allocNode] at hrun
      | deq => simp [runOps, Queue.dequeue] at hrun
  | succ f =>
    obtain ⟨s2, hrun2, hinv2⟩ := runOps_model f ops (Queue.new T) [] (inv_new T)
    rw [hrun2] at hrun
    have hs : s2 = s := congrArg Prod.fst (Option.some_inj.mp hrun)
    exact ⟨(specFifoRun ops []).1, hs ▸ hinv2⟩

-- Facts about the abstract FIFO model.

theorem specFifoRun_enqs {T : Type} (l : List T) :
    ∀ (ops : List (Op T)) (vs : List T),
      specFifoRun (l.map Op.enq ++ ops) vs = specFifoRun ops (vs ++ l) := by
  induction l with
  | nil => intro ops vs; simp
  | cons v l ih =>
    intro ops vs
    rw [List.map_cons, List.cons_append]
    rw [show specFifoRun (Op.enq v :: (l.map Op.enq ++ ops)) vs
        = specFifoRun (l.map Op.enq ++ ops) (vs ++ [v]) from rfl]
    rw [ih]
    simp

theorem specFifoRun_deqs {T : Type} (k : Nat) :
    ∀ l : List T, specFifoRun (List.replicate (l.length + k) Op.deq) l
      = ([], l.map some ++ List.replicate k none) := by
  intro l
  induction l with
  | nil =>
    simp only [List.length_nil, Nat.zero_add, List.map_nil, List.nil_append]
    induction k with
    | zero => rfl
    | succ k ihk =>
      simp only [List.replicate_succ, specFifoRun, ihk]
  | cons v l ih =>
    have hlen : (v :: l).length + k = (l.length + k) + 1 := by
      simp [Nat.succ_add]
    rw [hlen, List.replicate_succ]
    simp only [specFifoRun, ih, List.map_cons, List.cons_append]

theorem specFifoRun_conserves {T : Type} :
    ∀ (ops : List (Op T)) (vs : List T),
      ((((specFifoRun ops vs).2).filterMap id : Multiset T)
        + ((specFifoRun ops vs).1 : Multiset T))
        = (vs : Multiset T) + (enqueuedVals ops : Multiset T) := by
  intro ops
  induction ops with
  | nil => intro vs; simp [specFifoRun, enqueuedVals]
  | cons op ops ih =>
    intro vs
    cases op with
    | enq v =>
      have hstep := ih (vs ++ [v])
      simp only [specFifoRun, enqueuedVals]
      rw [hstep, Multiset.coe_add, Multiset.coe_add, List.append_assoc,
        List.singleton_append]
    | deq =>
      cases vs with
      | nil =>
        have hstep := ih []
        simp only [specFifoRun, enqueuedVals]
        simpa using hstep
      | cons v rest =>
        have hstep := ih rest
        simp only [specFifoRun, enqueuedVals, List.filterMap_cons, id]
        rw [← Multiset.cons_coe, ← Multiset.cons_coe, Multiset.cons_add,
          Multiset.cons_add, hstep]

/-- Counting version of conservation: dequeued values plus leftovers count
the enqueues. -/
theorem specFifoRun_count {T : Type} (ops : List (Op T)) (vs : List T) :
    (((specFifoRun ops vs).2).filterMap id).length + ((specFifoRun ops vs).1).length
      = vs.length + (enqueuedVals ops).length := by
  have h := specFifoRun_conserves ops vs
  have := congrArg Multiset.card h
  simpa [Multiset.coe_card] using this

-- Concrete reachable states used to instantiate the hypotheses of the main
-- theorems.

theorem reach_new (T : Type) : Reachable (Queue.new T) := ⟨1, [], [], rfl⟩

theorem reach_exOne : Reachable exOne := ⟨1, [Op.enq 10], [], rfl⟩

theorem inv_exOne : Inv exOne [10] := by
  refine ⟨by decide, ?_, ⟨{ next := 2, value := none }, by decide, rfl⟩, ⟨[2], ?_⟩⟩
  · intro q hq
    have h3 : 3 ≤ q := hq
    have q1 : q ≠ 1 := by omega
    have q2 : q ≠ 2 := by omega
    show setN (setN (setN (fun _ => none) 1 (Node.sentinel Nat)) 2 (Node.new 10))
      1 { next := 2, value := none } q = none
    simp [setN, q1, q2]
  · refine Seg.cons 1 { next := 2, value := none } [] [] 10
      { next := 0, value := some 10 } 2 (by decide) (by decide) (by decide) rfl ?_
    exact Seg.nil 2 { next := 0, value := some 10 } (by decide) rfl

/-- C1: for every sequence of enqueues of `v1, ..., vn` performed on a fresh
queue, a subsequent sequence of `n` dequeues returns `some v1, ..., some vn`
in that order and one further dequeue reports empty (per-producer FIFO); in
particular enqueuing 11, 12, 13 and dequeuing four times yields
`some 11, some 12, some 13, none`. -/
theorem C1_per_producer_fifo (T : Type) (f : Nat) (l : List T) :
    (∃ s2, runOps (f + 1) (l.map Op.enq ++ List.replicate (l.length + 1) Op.deq)
        (Queue.new T) = some (s2, l.map some ++ [none])) ∧
    (runOps 1 [Op.enq 11, Op.enq 12, Op.enq 13, Op.deq, Op.deq, Op.deq, Op.deq]
        (Queue.new Nat)).map Prod.snd = some [some 11, some 12, some 13, none] := by
  constructor
  · obtain ⟨s2, hrun, _⟩ := runOps_model f
      (l.map Op.enq ++ List.replicate (l.length + 1) Op.deq) (Queue.new T) [] (inv_new T)
    refine ⟨s2, ?_⟩
    rw [hrun]
    have hmodel :
        specFifoRun (l.map Op.enq ++ List.replicate (l.length + 1) Op.deq) ([] : List T)
          = ([], l.map some ++ [none]) := by
      rw [specFifoRun_enqs, List.nil_append]
      have := specFifoRun_deqs 1 l
      simpa using this
    rw [hmodel]
  · decide

/-- C2: in every complete execution (one that drains the queue), the multiset
of values returned by the successful dequeues equals the multiset of enqueued
values, exactly `N` dequeues return a value for `N` enqueues, and every
further dequeue reports empty. -/
theorem C2_no_loss_no_duplication (T : Type) (f : Nat) (ops : List (Op T))
    (hdrained : (specFifoRun ops []).1 = []) :
    ∃ s2, runOps (f + 1) ops (Queue.new T) = some (s2, (specFifoRun ops []).2) ∧
      (((specFifoRun ops []).2.filterMap id : Multiset T)
        = (enqueuedVals ops : Multiset T)) ∧
      ((specFifoRun ops []).2.filterMap id).length = (enqueuedVals ops).length ∧
      Queue.dequeue (f + 1) s2 = some (s2, none) := by
  obtain ⟨s2, hrun, hinv⟩ := runOps_model f ops (Queue.new T) [] (inv_new T)
  have hcons := specFifoRun_conserves ops ([] : List T)
  rw [hdrained] at hcons
  have hmult : ((specFifoRun ops []).2.filterMap id : Multiset T)
      = (enqueuedVals ops : Multiset T) := by simpa using hcons
  refine ⟨s2, hrun, hmult, ?_, ?_⟩
  · have hcard := congrArg Multiset.card hmult
    simpa [Multiset.coe_card] using hcard
  · rw [hdrained] at hinv
    exact dequeue_spec_nil f hinv

theorem C2_no_loss_no_duplication_witness :
    (specFifoRun [Op.enq (3 : Nat), Op.deq] []).1 = [] ∧
    ((specFifoRun [Op.enq (3 : Nat), Op.deq] []).2.filterMap id : Multiset Nat)
      = (enqueuedVals [Op.enq (3 : Nat), Op.deq] : Multiset Nat) := by
  refine ⟨by decide, ?_⟩
  obtain ⟨s2, hrun, hmult, hlen, hdq⟩ :=
    C2_no_loss_no_duplication Nat 0 [Op.enq 3, Op.deq] (by decide)
  exact hmult

/-- C3 (counterexample): a successful dequeue does not update the queue's
`head` reference.  On the state reached by `enqueue 10` from a fresh queue
(`exOne`, with `head = 1` and the removed node at address `2`), dequeue
succeeds with `some 10` yet `head` is still `1` afterwards (the `tail`
reference, not `head`, is what moves, back to `1`). -/
theorem C3_head_advances_counterexample :
    (Queue.dequeue 1 exOne).map (fun r => (r.2, r.1.head, r.1.tail))
      = some (some 10, 1, 1) ∧
    exOne.head = 1 ∧ exOne.tail = 2 := by
  refine ⟨by decide, rfl, rfl⟩

/-- C3 (amended): a node is logically removed on dequeue by advancing the
head node's next-reference past it: on every successful dequeue, `head`
itself is unchanged and the head node's `next` field is CASed from the
removed node to the removed node's successor; the removed node's value is
extracted exactly once (the node's stored value is cleared by the take). -/
theorem C3_unlink_via_head_next {T : Type} {s : Queue T} {v : T} {vs : List T}
    (f : Nat) (h : Inv s (v :: vs)) :
    ∃ hn fn : Node T, ∃ s2 : Queue T,
      getN s.heap s.head = some hn ∧ getN s.heap hn.next = some fn ∧
      fn.value = some v ∧
      Queue.dequeue (f + 1) s = some (s2, some v) ∧
      s2.head = s.head ∧
      getN s2.heap s.head = some { next := fn.next, value := hn.value } ∧
      getN s2.heap hn.next = some { next := fn.next, value := none } := by
  obtain ⟨hn, fn, s2, c1, c2, c3, c4, c5, c6, c7, c8, c9, c10, c11, c12, c13⟩ :=
    dequeue_spec_cons f h
  exact ⟨hn, fn, s2, c1, c4, c5, c6, c7, c10, c11⟩

theorem C3_unlink_via_head_next_witness :
    ∃ hn fn : Node Nat, ∃ s2 : Queue Nat,
      getN exOne.heap exOne.head = some hn ∧ getN exOne.heap hn.next = some fn ∧
      fn.value = some 10 ∧
      Queue.dequeue 1 exOne = some (s2, some 10) ∧
      s2.head = exOne.head ∧
      getN s2.heap exOne.head = some { next := fn.next, value := hn.value } ∧
      getN s2.heap hn.next = some { next := fn.next, value := none } :=
  C3_unlink_via_head_next 0 inv_exOne

/-- C4 (counterexample): when the `tail` snapshot has a non-null `next`, the
enqueue loop does not retry from the top before attempting to link: on the
lagging state `lagState` the trace shows the helping CAS immediately
followed by a link-CAS attempt (`linkCasNext 1 0 3 2`) with no re-read of
`tail` in between, so the claimed retry-before-link discipline is violated. -/
theorem C4_retry_before_link_counterexample :
    (getN lagState.heap lagState.tail).map Node.next = some 2 ∧
    (Queue.enqueue 2 lagState 7).map Prod.snd
      = some [EnqEvent.loadTail 1, EnqEvent.loadNext 1 2, EnqEvent.helpCasTail 1 2 1,
          EnqEvent.linkCasNext 1 0 3 2, EnqEvent.loadTail 2, EnqEvent.loadNext 2 0,
          EnqEvent.linkCasNext 2 0 3 0] ∧
    (Queue.enqueue 2 lagState 7).map (fun r => helpReloads r.2) = some false := by
  refine ⟨by decide, by decide, by decide⟩

/-- C4 (amended): when the `tail` snapshot `T` has a non-null next `N`, the
iteration attempts the helping CAS of `tail` from `T` to `N` and then — in
the same iteration, without re-reading `tail` — attempts the link CAS on
`T`'s next-reference; since that field still holds `N ≠ null` the link CAS
fails, and only then does the loop retry from the top. -/
theorem C4_help_then_link_same_iteration {T : Type} (f : Nat) (s : Queue T)
    (tn : Node T) (newPtr : Nat) (evs : List EnqEvent)
    (h : getN s.heap s.tail = some tn) (hnn : tn.next ≠ 0) :
    Queue.enqueueLoop newPtr (f + 1) s evs
      = Queue.enqueueLoop newPtr f { s with tail := tn.next }
          (evs ++ [EnqEvent.loadTail s.tail, EnqEvent.loadNext s.tail tn.next,
            EnqEvent.helpCasTail s.tail tn.next s.tail,
            EnqEvent.linkCasNext s.tail 0 newPtr tn.next]) := by
  simp only [Queue.enqueueLoop, h, Queue.casTail, Queue.casNext, if_pos rfl, hnn]
  simp [h, hnn]

theorem C4_help_then_link_same_iteration_witness :
    Queue.enqueueLoop 3 1 lagState []
      = Queue.enqueueLoop 3 0 { lagState with tail := 2 }
          [EnqEvent.loadTail 1, EnqEvent.loadNext 1 2, EnqEvent.helpCasTail 1 2 1,
           EnqEvent.linkCasNext 1 0 3 2] :=
  C4_help_then_link_same_iteration 0 lagState { next := 2, value := none } 3 []
    (by decide) (by decide)

/-- C5: in every state reachable through `new`/`enqueue`/`dequeue`, whenever
the head and tail references differ, the head node's next-reference is
non-null, so the defensive `assert!` in dequeue never fires (dequeue never
returns the failure outcome). -/
theorem C5_assert_never_fires {T : Type} {s : Queue T} (h : Reachable s)
    (hne : s.head ≠ s.tail) :
    ∃ hn, getN s.heap s.head = some hn ∧ hn.next ≠ 0 ∧
      ∀ f, Queue.dequeue (f + 1) s ≠ none := by
  obtain ⟨vs, hinv⟩ := reach_inv h
  have hinv2 := hinv
  cases vs with
  | nil =>
    obtain ⟨_, _, _, ps, hseg⟩ := hinv
    obtain ⟨_, hts, _⟩ := hseg.nil_inv
    exact absurd hts.symm hne
  | cons v vs' =>
    obtain ⟨hn, fn, s2, c1, c2, c3, c4, c5, _⟩ := dequeue_spec_cons 0 hinv
    refine ⟨hn, c1, c3, ?_⟩
    intro f hdq
    obtain ⟨hn2, fn2, s22, d1, d2, d3, d4, d5, d6, _⟩ := dequeue_spec_cons f hinv2
    rw [d6] at hdq
    exact Option.noConfusion hdq

theorem C5_assert_never_fires_witness :
    exOne.head ≠ exOne.tail ∧
    ∃ hn, getN exOne.heap exOne.head = some hn ∧ hn.next ≠ 0 ∧
      ∀ f, Queue.dequeue (f + 1) exOne ≠ none :=
  ⟨by decide, C5_assert_never_fires reach_exOne (by decide)⟩

/-- C6: a freshly constructed queue is exactly one sentinel node referenced
by both `head` and `tail`, and after any sequence of operations `head` and
`tail` are non-null references to allocated nodes and the heap contains a
chain from the head node to a terminal node whose next-reference is null. -/
theorem C6_structural_invariant (T : Type) :
    ((Queue.new T).head = (Queue.new T).tail ∧
      getN (Queue.new T).heap (Queue.new T).head = some (Node.sentinel T)) ∧
    ∀ s : Queue T, Reachable s →
      s.head ≠ 0 ∧ s.tail ≠ 0 ∧
      (∃ hn, getN s.heap s.head = some hn) ∧
      (∃ tn, getN s.heap s.tail = some tn ∧ tn.next = 0) ∧
      (∃ ps vs, Seg s.heap s.head ps vs s.tail) := by
  constructor
  · refine ⟨rfl, ?_⟩
    show getN (setN (fun _ => none) 1 (Node.sentinel T)) 1 = some (Node.sentinel T)
    simp [getN, setN]
  · intro s h
    obtain ⟨vs, hinv⟩ := reach_inv h
    obtain ⟨hpos, hb, ⟨hn, hhd, _⟩, ps, hseg⟩ := hinv
    obtain ⟨tn, htn, htn0⟩ := hseg.terminal
    exact ⟨getN_ne_zero hhd, getN_ne_zero htn, ⟨hn, hhd⟩, ⟨tn, htn, htn0⟩,
      ⟨ps, vs, hseg⟩⟩

theorem C6_structural_invariant_witness :
    (Queue.new Nat).head ≠ 0 ∧ (Queue.new Nat).tail ≠ 0 ∧
    (∃ hn, getN (Queue.new Nat).heap (Queue.new Nat).head = some hn) ∧
    (∃ tn, getN (Queue.new Nat).heap (Queue.new Nat).tail = some tn ∧ tn.next = 0) ∧
    (∃ ps vs, Seg (Queue.new Nat).heap (Queue.new Nat).head ps vs (Queue.new Nat).tail) :=
  (C6_structural_invariant Nat).2 (Queue.new Nat) (reach_new Nat)

/-- C7: dequeue on a drained queue reports empty through the optional result
(never a failure), repeatably: any number of consecutive dequeues all return
the empty result and leave the state untouched, until another enqueue
occurs. -/
theorem C7_empty_dequeue_repeatable {T : Type} {s : Queue T} (f : Nat)
    (h : Inv s []) (k : Nat) :
    runOps (f + 1) (List.replicate k Op.deq) s = some (s, List.replicate k none) := by
  induction k with
  | zero => rfl
  | succ k ih =>
    rw [List.replicate_succ, List.replicate_succ]
    simp only [runOps, dequeue_spec_nil f h, ih]

theorem C7_empty_dequeue_repeatable_witness :
    runOps 1 (List.replicate 2 Op.deq) (Queue.new Nat)
      = some (Queue.new Nat, List.replicate 2 none) :=
  C7_empty_dequeue_repeatable 0 (inv_new Nat) 2

/-- C8: enqueue always succeeds and terminates: from every reachable queue
state (any state satisfying the invariant) and for every value, the CAS loop
exits on its very first iteration (fuel `1` suffices) with the value inserted
as the new logical tail, and the invariant is preserved. -/
theorem C8_enqueue_always_succeeds {T : Type} {s : Queue T} {vs : List T}
    (v : T) (h : Inv s vs) :
    ∃ s2 evs, Queue.enqueue 1 s v = some (s2, evs) ∧ Inv s2 (vs ++ [v]) := by
  obtain ⟨tn, htn, htn0, heq, hinv⟩ := enqueue_spec 0 v h
  exact ⟨_, _, heq, hinv⟩

theorem C8_enqueue_always_succeeds_witness :
    ∃ s2 evs, Queue.enqueue 1 (Queue.new Nat) 5 = some (s2, evs) ∧
      Inv s2 ([] ++ [5]) :=
  C8_enqueue_always_succeeds 5 (inv_new Nat)

/-- C9: a dequeue that reports empty performs no mutation at all: from any
state in which the queue is observed empty (`head = tail` and the head
node's next-reference is null), dequeue returns `none` together with the
state itself, completely unchanged. -/
theorem C9_empty_dequeue_no_mutation {T : Type} {s : Queue T} {hn : Node T}
    (f : Nat) (h1 : getN s.heap s.head = some hn) (h2 : hn.next = 0)
    (h3 : s.head = s.tail) :
    Queue.dequeue (f + 1) s = some (s, none) := by
  simp only [Queue.dequeue, h1, h2, if_pos h3]
  simp

theorem C9_empty_dequeue_no_mutation_witness :
    Queue.dequeue 1 (Queue.new Nat) = some (Queue.new Nat, none) :=
  @C9_empty_dequeue_no_mutation Nat (Queue.new Nat) (Node.sentinel Nat) 0 (by decide) rfl rfl

/-- C10: in every reachable state, the head node (the sentinel position)
holds no value while every node linked after it in the chain holds a present
value; consequently a dequeue that removed a node always returns a present
value — whenever dequeue returns the empty result, the state is completely
unchanged (nothing was removed). -/
theorem C10_linked_values_present {T : Type} {s : Queue T} (h : Reachable s) :
    (∃ hn, getN s.heap s.head = some hn ∧ hn.value = none) ∧
    (∃ ps vs, Seg s.heap s.head ps vs s.tail ∧
      ∀ q ∈ ps, ∃ nq, getN s.heap q = some nq ∧ nq.value ≠ none) ∧
    (∀ f s2 r, Queue.dequeue (f + 1) s = some (s2, r) → r = none → s2 = s) := by
  obtain ⟨vs, hinv⟩ := reach_inv h
  have hinv2 := hinv
  obtain ⟨hpos, hb, hhead, ps, hseg⟩ := hinv
  refine ⟨hhead, ⟨ps, vs, hseg, hseg.value_mem⟩, ?_⟩
  intro f s2 r hdq hr
  cases vs with
  | nil =>
    rw [dequeue_spec_nil f hinv2] at hdq
    have hpair := Option.some_inj.mp hdq
    exact (congrArg Prod.fst hpair).symm
  | cons v vs' =>
    obtain ⟨hn, fn, sA, c1, c2, c3, c4, c5, c6, _⟩ := dequeue_spec_cons f hinv2
    rw [c6] at hdq
    have hpair := Option.some_inj.mp hdq
    have hrr := congrArg Prod.snd hpair
    rw [hr] at hrr
    exact Option.noConfusion hrr

theorem C10_linked_values_present_witness :
    (∃ hn, getN exOne.heap exOne.head = some hn ∧ hn.value = none) ∧
    (∃ ps vs, Seg exOne.heap exOne.head ps vs exOne.tail ∧
      ∀ q ∈ ps, ∃ nq, getN exOne.heap q = some nq ∧ nq.value ≠ none) ∧
    (∀ f s2 r, Queue.dequeue (f + 1) exOne = some (s2, r) → r = none → s2 = exOne) :=
  C10_linked_values_present reach_exOne

end LockFreeQueue
